import Mathlib

/-!
# Verification of sidecar's search-and-replace streaming editor

Shallow embedding of `src/sidecar/src/agentic/tool/code_edit/search_and_replace.rs`:
the `SearchAndReplaceAccumulator` streaming state machine, its helpers
`get_last_newline_line_number` and `get_range_for_search_block`, and the final
result classification of `SearchAndReplaceEditing::invoke`.

Strings are modelled as `List Char` (Rust `String` is a sequence of unicode
scalar values).  Rust's `str::lines` splits at `'\n'` and strips one trailing
`'\r'` from every line that was terminated by a `'\n'`; a final unterminated
line is yielded as-is.  Panics (out-of-bounds slicing / `usize` underflow) are
modelled by a `panicked` flag: a panic unwinds the task, so once set, no
further processing occurs.
-/

namespace SearchAndReplace

abbrev Str := List Char

/-- Number of `'\n'` characters in a string. -/
def countNl (s : Str) : Nat := s.count '\n'

/-- Split a string at every `'\n'` (the separators are dropped).  Always
returns a non-empty list; a trailing `'\n'` yields a trailing empty segment. -/
def splitNl : Str → List Str
  | [] => [[]]
  | c :: rest =>
    if c = '\n' then [] :: splitNl rest
    else (c :: (splitNl rest).headD []) :: (splitNl rest).tail

/-- Remove one trailing `'\r'`, as Rust's `str::lines` does for a line that was
terminated by `'\n'`. -/
def stripCr (l : Str) : Str :=
  if l.getLast? = some '\r' then l.dropLast else l

/-- The fully `'\n'`-terminated lines of `s`, each stripped of a trailing
`'\r'`.  There are exactly `countNl s` of them. -/
def terminatedLines (s : Str) : List Str :=
  ((splitNl s).dropLast).map stripCr

/-- Rust `str::lines`: the terminated lines, followed by the final
unterminated segment if it is non-empty (kept verbatim, no `'\r'` strip). -/
def linesRust (s : Str) : List Str :=
  terminatedLines s ++
    (if (splitNl s).getLastD [] = [] then [] else [(splitNl s).getLastD []])

/-- Rust `[String]::join("\n")`. -/
def joinNl : List Str → Str
  | [] => []
  | [l] => l
  | l :: ls => l ++ '\n' :: joinNl ls

/-- Modelled from the spec: `Range`/`Position` live in
`chunking::text_document`, which is not part of the sources; the spec's data
model says an `EditRange` is an absolute *inclusive* `(start line, end line)`
pair and that column positions are not meaningful (the code always builds
`Position::new(line, 0, 0)`).  We therefore model a `Range` as the two line
numbers. -/
structure Range where
  start_line : Nat
  end_line : Nat
deriving DecidableEq

/-- The `EditDelta` enum: the edit-event protocol emitted by the accumulator. -/
inductive EditDelta where
  | EditStarted (r : Range)
  | EditDelta (r : Range) (s : Str)
  | EditEnd (r : Range)
deriving DecidableEq

/-- The `SearchBlockStatus` enum (the parser state). -/
inductive SearchBlockStatus where
  | NoBlock
  | BlockStart
  | BlockAccumulate (acc : Str)
  | BlockFound (acc : Str) (r : Range)
deriving DecidableEq

/-- `let head = "<<<<<<< SEARCH";` -/
def head : Str := "<<<<<<< SEARCH".toList

/-- `let divider = "=======";` -/
def divider : Str := "=======".toList

/-- `let updated = ">>>>>>> REPLACE";` -/
def updated : Str := ">>>>>>> REPLACE".toList

/-- `get_last_newline_line_number`: `s.rfind('\n').map(|i| count of '\n' in
s[..=i])`.  `rfind` succeeds exactly when `s` contains a `'\n'`, and since the
inclusive prefix up to the *last* `'\n'` contains every `'\n'` of `s`, the
count is `countNl s`. -/
def get_last_newline_line_number (s : Str) : Option Nat :=
  if '\n' ∈ s then some (countNl s) else none

/-- The search loop of `get_range_for_search_block`: try window start indices
`i, i+1, ...` (`count` many); return the first `i` whose window of
`S.length` lines equals `S`. -/
def firstMatchIdx (L S : List Str) : Nat → Nat → Option Nat
  | 0, _ => none
  | count + 1, i =>
    if (L.drop i).take S.length = S then some i
    else firstMatchIdx L S count (i + 1)

/-- `get_range_for_search_block(code_to_look_at, start_line, search_block)`.

`.error` models a panic:
* if the search block has more lines than the code, the Rust expression
  `code_to_look_at_lines.len() - search_block_len` underflows (panic with
  overflow checks; without them, the wrapped bound makes the subsequent window
  slice index out of bounds, which also panics);
* if the search block has zero lines, the empty window matches at `i = 0` and
  the Rust expression `code_to_look_at_lines[i + search_block_len - 1]`
  underflows / indexes out of bounds. -/
def get_range_for_search_block (code_to_look_at : Str) (start_line : Nat)
    (search_block : Str) : Except String (Option Range) :=
  let code_to_look_at_lines := linesRust code_to_look_at
  let search_block_lines := linesRust search_block
  let n := code_to_look_at_lines.length
  let m := search_block_lines.length
  if m = 0 then .error "panic: index underflow on empty search block"
  else if n < m then .error "panic: attempt to subtract with overflow"
  else
    match firstMatchIdx code_to_look_at_lines search_block_lines (n - m + 1) 0 with
    | some i =>
      .ok (some ⟨i + start_line, i + m - 1 + start_line⟩)
    | none => .ok none

/-- The `SearchAndReplaceAccumulator` struct.  `events` models the messages
sent on `sender` so far (in order); `panicked` models an unwound task. -/
structure SearchAndReplaceAccumulator where
  code_lines : List Str
  start_line : Nat
  answer_up_until_now : Str
  previous_answer_line_number : Option Nat
  search_block_status : SearchBlockStatus
  updated_block : Option Str
  events : List EditDelta
  panicked : Bool
deriving DecidableEq

/-- `SearchAndReplaceAccumulator::new(code_to_edit, start_line, sender)`. -/
def SearchAndReplaceAccumulator.new (code_to_edit : Str) (start_line : Nat) :
    SearchAndReplaceAccumulator where
  code_lines := linesRust code_to_edit
  start_line := start_line
  answer_up_until_now := []
  previous_answer_line_number := none
  search_block_status := SearchBlockStatus.NoBlock
  updated_block := none
  events := []
  panicked := false

/-- The body of the per-line `match self.search_block_status` in
`process_answer`, processing one fully-terminated line.

In the `BlockFound` close branch the source first sets the status to
`NoBlock`, then patches the buffer — slicing `self.code_lines[..start]` and
`self.code_lines[end..]`, which panics if a bound exceeds the vector's length
— and only then clears `updated_block` and sends `EditEnd`. -/
def process_line (st : SearchAndReplaceAccumulator) (line : Str) :
    SearchAndReplaceAccumulator :=
  match st.search_block_status with
  | SearchBlockStatus.NoBlock =>
    if line = head then { st with search_block_status := SearchBlockStatus.BlockStart }
    else st
  | SearchBlockStatus.BlockStart =>
    { st with search_block_status := SearchBlockStatus.BlockAccumulate line }
  | SearchBlockStatus.BlockAccumulate accumulated =>
    if line = divider then
      match get_range_for_search_block (joinNl st.code_lines) st.start_line accumulated with
      | .ok (some range) =>
        { st with
            search_block_status := SearchBlockStatus.BlockFound accumulated range
            events := st.events ++ [EditDelta.EditStarted range] }
      | .ok none =>
        { st with search_block_status := SearchBlockStatus.NoBlock }
      | .error _ =>
        { st with panicked := true }
    else
      { st with search_block_status :=
          SearchBlockStatus.BlockAccumulate (accumulated ++ '\n' :: line) }
  | SearchBlockStatus.BlockFound _ block_range =>
    if line = updated then
      match st.updated_block with
      | some updated_answer =>
        let updated_range_start_line := block_range.start_line - st.start_line
        let updated_range_end_line := block_range.end_line - st.start_line
        if updated_range_start_line ≤ st.code_lines.length ∧
            updated_range_end_line ≤ st.code_lines.length then
          { st with
              search_block_status := SearchBlockStatus.NoBlock
              code_lines := linesRust
                (joinNl (st.code_lines.take updated_range_start_line) ++
                  '\n' :: (updated_answer ++
                    '\n' :: joinNl (st.code_lines.drop updated_range_end_line)))
              updated_block := none
              events := st.events ++ [EditDelta.EditEnd block_range] }
        else
          { st with
              search_block_status := SearchBlockStatus.NoBlock
              panicked := true }
      | none =>
        { st with
            search_block_status := SearchBlockStatus.NoBlock
            updated_block := none
            events := st.events ++ [EditDelta.EditEnd block_range] }
    else
      match st.updated_block with
      | none =>
        { st with
            updated_block := some line
            events := st.events ++ [EditDelta.EditDelta block_range line] }
      | some u =>
        { st with
            updated_block := some (u ++ '\n' :: line)
            events := st.events ++ [EditDelta.EditDelta block_range ('\n' :: line)] }

/-- The `for line_number in start_index..=line_number_to_process_until` loop of
`process_answer`: process `count` lines of `als` starting at index `i`,
recording `previous_answer_line_number := line_number` before each line, and
stopping if the task has panicked. -/
def processLoop (als : List Str) :
    SearchAndReplaceAccumulator → Nat → Nat → SearchAndReplaceAccumulator
  | st, _, 0 => st
  | st, i, count + 1 =>
    if st.panicked then st
    else
      processLoop als
        (process_line { st with previous_answer_line_number := some i } (als.getD i []))
        (i + 1) count

/-- `SearchAndReplaceAccumulator::process_answer`. -/
def process_answer (st : SearchAndReplaceAccumulator) :
    SearchAndReplaceAccumulator :=
  match get_last_newline_line_number st.answer_up_until_now with
  | none => st
  | some line_number_to_process =>
    let line_number_to_process_until := line_number_to_process - 1
    let answer_lines := linesRust st.answer_up_until_now
    let start_index :=
      match st.previous_answer_line_number with
      | none => 0
      | some p => p + 1
    processLoop answer_lines st start_index
      (line_number_to_process_until + 1 - start_index)

/-- `SearchAndReplaceAccumulator::add_delta`.  A panicked (unwound) task can
receive no further deltas. -/
def add_delta (st : SearchAndReplaceAccumulator) (delta : Str) :
    SearchAndReplaceAccumulator :=
  if st.panicked then st
  else process_answer { st with answer_up_until_now := st.answer_up_until_now ++ delta }

/-- The only `ToolError` variant reachable from
`SearchAndReplaceEditing::invoke`. -/
inductive ToolError where
  | RetriesExhausted
deriving DecidableEq

/-- `SearchAndReplaceEditingResponse`. -/
structure SearchAndReplaceEditingResponse where
  response : Str
deriving DecidableEq

/-- The terminal classification of `SearchAndReplaceEditing::invoke`: the
select loop breaks exactly when the completion future resolves, storing its
result in `stream_result`; then `Some(Ok(response))` yields the successful
tool output and every other outcome yields `Err(ToolError::RetriesExhausted)`.
The error type `ε` of the completion future is abstract. -/
def invoke_final {ε : Type} (stream_result : Option (Except ε Str)) :
    Except ToolError SearchAndReplaceEditingResponse :=
  match stream_result with
  | some (Except.ok response) => Except.ok ⟨response⟩
  | _ => Except.error ToolError.RetriesExhausted

/-! ## Proof-side definitions -/

/-! ## The processing fold `runSeg` and frame lemmas

`runSeg st ls` processes in sequence the fully-terminated lines `ls`, exactly
as the `process_answer` loop does, but without the
`previous_answer_line_number` bookkeeping; a panicked (unwound) task processes
nothing further. -/

def runSeg : SearchAndReplaceAccumulator → List Str → SearchAndReplaceAccumulator
  | st, [] => st
  | st, l :: ls => if st.panicked then st else runSeg (process_line st l) ls

/-- The fields of the accumulator that the per-line state machine reads and
writes: everything except the stream bookkeeping
(`answer_up_until_now`, `previous_answer_line_number`). -/
structure CoreView where
  code_lines : List Str
  start_line : Nat
  search_block_status : SearchBlockStatus
  updated_block : Option Str
  events : List EditDelta
  panicked : Bool
deriving DecidableEq

def coreView (st : SearchAndReplaceAccumulator) : CoreView where
  code_lines := st.code_lines
  start_line := st.start_line
  search_block_status := st.search_block_status
  updated_block := st.updated_block
  events := st.events
  panicked := st.panicked

/-- The invariant relating `previous_answer_line_number` to the processed
stream: every fully-terminated line of `answer_up_until_now` has been
processed. -/
def Synced (st : SearchAndReplaceAccumulator) : Prop :=
  st.previous_answer_line_number =
    if countNl st.answer_up_until_now = 0 then none
    else some (countNl st.answer_up_until_now - 1)

/-- States reachable by feeding deltas to a fresh accumulator are either
panicked (unwound) or fully synced. -/
def Inv (st : SearchAndReplaceAccumulator) : Prop :=
  st.panicked = true ∨ (st.panicked = false ∧ Synced st)

/-- The newly terminated lines contributed by appending `d` to answer `a`. -/
def newLines (a d : Str) : List Str :=
  (terminatedLines (a ++ d)).drop (countNl a)

/-! ## Well-bracketing of the emitted event stream

`brackStep`/`brackRun` is the acceptance automaton for well-bracketed event
streams: a `Started r` may occur only with no block open (and opens `r`),
`Delta`/`Ended` only for the currently open block, `Ended` closing it.  A
stream is well-bracketed when the automaton accepts it (a trailing open block
is allowed, since the upstream stream may end mid-block). -/

def brackStep : Option Range → EditDelta → Option (Option Range)
  | none, EditDelta.EditStarted r => some (some r)
  | some r, EditDelta.EditDelta r' _ => if r' = r then some (some r) else none
  | some r, EditDelta.EditEnd r' => if r' = r then some none else none
  | _, _ => none

def brackRun : Option Range → List EditDelta → Option (Option Range)
  | o, [] => some o
  | o, e :: es =>
    match brackStep o e with
    | some o' => brackRun o' es
    | none => none

/-- The block the parser state holds open. -/
def openOf : SearchBlockStatus → Option Range
  | SearchBlockStatus.BlockFound _ r => some r
  | _ => none

/-- Invariant: the events emitted so far are accepted by the bracket
automaton, and — as long as the task has not panicked — the automaton's state
is exactly the block the parser holds open. -/
def BInv (st : SearchAndReplaceAccumulator) : Prop :=
  (brackRun none st.events).isSome = true ∧
    (st.panicked = false →
      brackRun none st.events = some (openOf st.search_block_status))

/-! ## Concrete scenario states (from the spec's test scenarios) -/

/-- Scenario A/B buffer: `["def foo():", "    return 1"]`, anchored at 10. -/
def scenario_buffer : Str := "def foo():\n    return 1".toList

/-- Accumulator mid-stream, having consumed a header and an absent search
line (scenario B). -/
def stateB : SearchAndReplaceAccumulator :=
  add_delta (SearchAndReplaceAccumulator.new scenario_buffer 10)
    "<<<<<<< SEARCH\n    return 99\n".toList

/-- Accumulator just after resolving scenario A's search block: state
`BlockFound("    return 1", (11,11))`, no pending replacement. -/
def stateFound : SearchAndReplaceAccumulator :=
  add_delta (SearchAndReplaceAccumulator.new scenario_buffer 10)
    "<<<<<<< SEARCH\n    return 1\n=======\n".toList

/-- Accumulator with a found block whose range starts at the anchor line and
one pending replacement line. -/
def stateFound0 : SearchAndReplaceAccumulator :=
  add_delta (SearchAndReplaceAccumulator.new scenario_buffer 10)
    "<<<<<<< SEARCH\ndef foo():\n=======\nnew_first_line\n".toList

/-! ## Basic facts about the line-splitting functions -/

theorem splitNl_nil : splitNl [] = [[]] := rfl

theorem splitNl_cons (c : Char) (s : Str) :
    splitNl (c :: s) =
      if c = '\n' then [] :: splitNl s
      else (c :: (splitNl s).headD []) :: (splitNl s).tail := rfl

theorem splitNl_ne_nil (s : Str) : splitNl s ≠ [] := by
  cases s with
  | nil => simp [splitNl_nil]
  | cons c rest => rw [splitNl_cons]; split <;> simp

theorem length_splitNl (s : Str) : (splitNl s).length = countNl s + 1 := by
  induction s with
  | nil => simp [splitNl_nil, countNl]
  | cons c rest ih =>
    rw [splitNl_cons]
    by_cases hc : c = '\n'
    · subst hc
      rw [if_pos rfl, List.length_cons, ih]
      have h2 : countNl ('\n' :: rest) = countNl rest + 1 := by
        simp [countNl, List.count_cons]
      omega
    · rw [if_neg hc, List.length_cons, List.length_tail]
      have hne := splitNl_ne_nil rest
      have hlen : 1 ≤ (splitNl rest).length := by
        cases h : splitNl rest with
        | nil => exact absurd h hne
        | cons a l => simp
      have h2 : countNl (c :: rest) = countNl rest := by
        simp [countNl, List.count_cons, hc]
      omega

theorem countNl_append (s t : Str) : countNl (s ++ t) = countNl s + countNl t := by
  simp [countNl, List.count_append]

theorem splitNl_append (s t : Str) :
    splitNl (s ++ t) =
      (splitNl s).dropLast ++
        ((splitNl s).getLastD [] ++ (splitNl t).headD []) :: (splitNl t).tail := by
  induction s with
  | nil =>
    have hne := splitNl_ne_nil t
    cases h : splitNl t with
    | nil => exact absurd h hne
    | cons a l => simp [splitNl_nil, h]
  | cons c rest ih =>
    by_cases hc : c = '\n'
    · subst hc
      rw [List.cons_append, splitNl_cons, if_pos rfl, splitNl_cons, if_pos rfl, ih,
        List.dropLast_cons_of_ne_nil (splitNl_ne_nil rest),
        List.getLastD_cons, List.cons_append]
    · rw [List.cons_append, splitNl_cons, if_neg hc, splitNl_cons, if_neg hc, ih]
      have hne := splitNl_ne_nil rest
      cases hS : splitNl rest with
      | nil => exact absurd hS hne
      | cons x S' =>
        cases S' with
        | nil => simp
        | cons y S'' =>
          have hne' : y :: S'' ≠ [] := by simp
          simp only [List.headD_cons, List.tail_cons, List.dropLast_cons_of_ne_nil hne',
            List.getLastD_cons, List.cons_append]

theorem terminatedLines_length (s : Str) :
    (terminatedLines s).length = countNl s := by
  simp [terminatedLines, List.length_dropLast, length_splitNl]

theorem terminatedLines_append (s t : Str) :
    ∃ D, terminatedLines (s ++ t) = terminatedLines s ++ D := by
  refine ⟨(((splitNl s).getLastD [] ++ (splitNl t).headD []) :: (splitNl t).tail).dropLast.map
      stripCr, ?_⟩
  rw [terminatedLines, splitNl_append,
    List.dropLast_append_of_ne_nil _ (by simp), List.map_append]
  rfl

theorem linesRust_eq (s : Str) :
    linesRust s = terminatedLines s ++
      (if (splitNl s).getLastD [] = [] then [] else [(splitNl s).getLastD []]) := rfl

theorem countNl_le_length_linesRust (s : Str) : countNl s ≤ (linesRust s).length := by
  rw [linesRust_eq, List.length_append, terminatedLines_length]
  omega

theorem linesRust_getD_of_lt (s : Str) (i : Nat) (h : i < countNl s) :
    (linesRust s).getD i [] = (terminatedLines s).getD i [] := by
  rw [linesRust_eq]
  have hlen : i < (terminatedLines s).length := by rw [terminatedLines_length]; exact h
  rw [List.getD_eq_getElem _ _ (by simp [List.length_append]; omega),
    List.getD_eq_getElem _ _ hlen]
  exact List.getElem_append_left hlen

theorem linesRust_drop_take (s : Str) (c : Nat) (h : c ≤ countNl s) :
    ((linesRust s).drop c).take (countNl s - c) = (terminatedLines s).drop c := by
  rw [linesRust_eq, List.drop_append_eq_append_drop, terminatedLines_length]
  have h0 : c - countNl s = 0 := by omega
  rw [h0, List.drop_zero, List.take_append_eq_append_take, List.length_drop,
    terminatedLines_length]
  have h1 : countNl s - c - (countNl s - c) = 0 := by omega
  rw [h1, List.take_zero, List.append_nil, List.take_of_length_le]
  rw [List.length_drop, terminatedLines_length]

theorem terminatedLines_nil_of_no_nl (s : Str) (h : countNl s = 0) :
    terminatedLines s = [] := by
  have := terminatedLines_length s
  rw [h] at this
  exact List.length_eq_zero.mp this

theorem runSeg_nil (st : SearchAndReplaceAccumulator) : runSeg st [] = st := rfl

theorem runSeg_cons (st : SearchAndReplaceAccumulator) (l : Str) (ls : List Str) :
    runSeg st (l :: ls) = if st.panicked then st else runSeg (process_line st l) ls := rfl

theorem runSeg_of_panicked {st : SearchAndReplaceAccumulator} (ls : List Str)
    (h : st.panicked = true) : runSeg st ls = st := by
  cases ls with
  | nil => rfl
  | cons l ls => rw [runSeg_cons, if_pos h]

theorem runSeg_append (st : SearchAndReplaceAccumulator) (l1 l2 : List Str) :
    runSeg st (l1 ++ l2) = runSeg (runSeg st l1) l2 := by
  induction l1 generalizing st with
  | nil => rfl
  | cons x l1' ih =>
    by_cases h : st.panicked = true
    · rw [List.cons_append, runSeg_cons, if_pos h, runSeg_cons, if_pos h,
        runSeg_of_panicked l2 h]
    · have h' : st.panicked = false := by simp at h; exact h
      rw [List.cons_append, runSeg_cons, if_neg (by simp [h']), runSeg_cons,
        if_neg (by simp [h']), ih]

theorem coreView_set_bookkeeping (st : SearchAndReplaceAccumulator)
    (p : Option Nat) (a : Str) :
    coreView { st with previous_answer_line_number := p, answer_up_until_now := a }
      = coreView st := rfl

theorem coreView_eq_elim {st st' : SearchAndReplaceAccumulator}
    (h : coreView st = coreView st') :
    st' = { st with previous_answer_line_number := st'.previous_answer_line_number,
                    answer_up_until_now := st'.answer_up_until_now } := by
  obtain ⟨cl, sl, ans, pv, status, ub, ev, pk⟩ := st
  obtain ⟨cl', sl', ans', pv', status', ub', ev', pk'⟩ := st'
  simp only [coreView, CoreView.mk.injEq] at h
  obtain ⟨h1, h2, h3, h4, h5, h6⟩ := h
  subst h1; subst h2; subst h3; subst h4; subst h5; subst h6
  rfl

theorem process_line_set_prev (st : SearchAndReplaceAccumulator) (p : Option Nat)
    (l : Str) :
    process_line { st with previous_answer_line_number := p } l
      = { process_line st l with previous_answer_line_number := p } := by
  obtain ⟨cl, sl, ans, pv, status, ub, ev, pk⟩ := st
  cases status <;> simp only [process_line] <;> (repeat' split) <;> rfl

theorem process_line_set_answer (st : SearchAndReplaceAccumulator) (a : Str)
    (l : Str) :
    process_line { st with answer_up_until_now := a } l
      = { process_line st l with answer_up_until_now := a } := by
  obtain ⟨cl, sl, ans, pv, status, ub, ev, pk⟩ := st
  cases status <;> simp only [process_line] <;> (repeat' split) <;> rfl

theorem process_line_prev (st : SearchAndReplaceAccumulator) (l : Str) :
    (process_line st l).previous_answer_line_number
      = st.previous_answer_line_number := by
  obtain ⟨cl, sl, ans, pv, status, ub, ev, pk⟩ := st
  cases status <;> simp only [process_line] <;> (repeat' split) <;> rfl

theorem process_line_answer (st : SearchAndReplaceAccumulator) (l : Str) :
    (process_line st l).answer_up_until_now = st.answer_up_until_now := by
  obtain ⟨cl, sl, ans, pv, status, ub, ev, pk⟩ := st
  cases status <;> simp only [process_line] <;> (repeat' split) <;> rfl

theorem runSeg_set_prev (st : SearchAndReplaceAccumulator) (p : Option Nat)
    (ls : List Str) :
    runSeg { st with previous_answer_line_number := p } ls
      = { runSeg st ls with previous_answer_line_number := p } := by
  induction ls generalizing st with
  | nil => rfl
  | cons l ls ih =>
    rw [runSeg_cons, runSeg_cons]
    by_cases h : st.panicked = true
    · rw [if_pos h, if_pos h]
    · have h' : st.panicked = false := by simp at h; exact h
      rw [if_neg (by simp [h']), if_neg (by simp [h']), process_line_set_prev, ih]

theorem runSeg_set_answer (st : SearchAndReplaceAccumulator) (a : Str)
    (ls : List Str) :
    runSeg { st with answer_up_until_now := a } ls
      = { runSeg st ls with answer_up_until_now := a } := by
  induction ls generalizing st with
  | nil => rfl
  | cons l ls ih =>
    rw [runSeg_cons, runSeg_cons]
    by_cases h : st.panicked = true
    · rw [if_pos h, if_pos h]
    · have h' : st.panicked = false := by simp at h; exact h
      rw [if_neg (by simp [h']), if_neg (by simp [h']), process_line_set_answer, ih]

theorem coreView_set_prev (st : SearchAndReplaceAccumulator) (p : Option Nat) :
    coreView { st with previous_answer_line_number := p } = coreView st := rfl

theorem coreView_set_answer (st : SearchAndReplaceAccumulator) (a : Str) :
    coreView { st with answer_up_until_now := a } = coreView st := rfl

theorem runSeg_coreView_congr {st st' : SearchAndReplaceAccumulator}
    (h : coreView st = coreView st') (ls : List Str) :
    coreView (runSeg st ls) = coreView (runSeg st' ls) := by
  have hst : st' = { ({ st with answer_up_until_now := st'.answer_up_until_now } :
      SearchAndReplaceAccumulator) with
        previous_answer_line_number := st'.previous_answer_line_number } :=
    coreView_eq_elim h
  calc coreView (runSeg st ls)
      = coreView { runSeg st ls with
          answer_up_until_now := st'.answer_up_until_now } :=
        (coreView_set_answer _ _).symm
    _ = coreView (runSeg { st with
          answer_up_until_now := st'.answer_up_until_now } ls) := by
        exact congrArg coreView (runSeg_set_answer st _ ls).symm
    _ = coreView { runSeg { st with
          answer_up_until_now := st'.answer_up_until_now } ls with
          previous_answer_line_number := st'.previous_answer_line_number } :=
        (coreView_set_prev _ _).symm
    _ = coreView (runSeg { ({ st with
          answer_up_until_now := st'.answer_up_until_now } :
            SearchAndReplaceAccumulator) with
          previous_answer_line_number := st'.previous_answer_line_number } ls) := by
        exact congrArg coreView (runSeg_set_prev _ _ ls).symm
    _ = coreView (runSeg st' ls) := by
        exact congrArg (fun x => coreView (runSeg x ls)) hst.symm

/-! ## The `process_answer` loop versus `runSeg` -/

theorem processLoop_zero (als : List Str) (st : SearchAndReplaceAccumulator) (i : Nat) :
    processLoop als st i 0 = st := rfl

theorem processLoop_succ (als : List Str) (st : SearchAndReplaceAccumulator)
    (i n : Nat) :
    processLoop als st i (n + 1) =
      if st.panicked then st
      else processLoop als
        (process_line { st with previous_answer_line_number := some i } (als.getD i []))
        (i + 1) n := rfl

theorem processLoop_answer (als : List Str) (st : SearchAndReplaceAccumulator)
    (i n : Nat) :
    (processLoop als st i n).answer_up_until_now = st.answer_up_until_now := by
  induction n generalizing st i with
  | zero => rfl
  | succ n ih =>
    rw [processLoop_succ]
    by_cases h : st.panicked = true
    · rw [if_pos h]
    · rw [if_neg h, ih, process_line_answer]

theorem processLoop_prev (als : List Str) (st : SearchAndReplaceAccumulator)
    (i n : Nat) (h : (processLoop als st i n).panicked = false) :
    (processLoop als st i n).previous_answer_line_number =
      if n = 0 then st.previous_answer_line_number else some (i + n - 1) := by
  induction n generalizing st i with
  | zero => rfl
  | succ n ih =>
    rw [processLoop_succ] at h ⊢
    by_cases hp : st.panicked = true
    · rw [if_pos hp] at h
      rw [h] at hp
      exact absurd hp (by simp)
    · rw [if_neg hp] at h ⊢
      rw [ih _ _ h]
      cases n with
      | zero =>
        rw [if_pos rfl, if_neg (by simp), process_line_prev]
        simp
      | succ m =>
        rw [if_neg (by simp), if_neg (by simp)]
        congr 1
        omega

theorem processLoop_coreView (als : List Str) (st : SearchAndReplaceAccumulator)
    (i n : Nat) (h : i + n ≤ als.length) :
    coreView (processLoop als st i n) =
      coreView (runSeg st ((als.drop i).take n)) := by
  induction n generalizing st i with
  | zero => rfl
  | succ n ih =>
    have hi : i < als.length := by omega
    have hsplit : (als.drop i).take (n + 1) =
        als[i] :: (als.drop (i + 1)).take n := by
      rw [List.drop_eq_getElem_cons hi, List.take_succ_cons]
    rw [processLoop_succ, hsplit, runSeg_cons]
    by_cases hp : st.panicked = true
    · rw [if_pos hp, if_pos hp]
    · rw [if_neg hp, if_neg hp]
      rw [ih _ _ (by omega)]
      rw [List.getD_eq_getElem als [] hi, process_line_set_prev]
      calc coreView (runSeg { process_line st als[i] with
              previous_answer_line_number := some i } ((als.drop (i + 1)).take n))
          = coreView { runSeg (process_line st als[i]) ((als.drop (i + 1)).take n) with
              previous_answer_line_number := some i } := by
            exact congrArg coreView (runSeg_set_prev _ _ _)
        _ = coreView (runSeg (process_line st als[i]) ((als.drop (i + 1)).take n)) :=
            coreView_set_prev _ _

theorem countNl_pos_of_mem {s : Str} (h : '\n' ∈ s) : 0 < countNl s := by
  rw [countNl]
  exact List.count_pos_iff.mpr h

theorem countNl_eq_zero_of_not_mem {s : Str} (h : ¬ '\n' ∈ s) : countNl s = 0 := by
  rw [countNl]
  exact List.count_eq_zero.mpr h

theorem add_delta_coreView (st : SearchAndReplaceAccumulator) (d : Str)
    (hpk : st.panicked = false) (hsync : Synced st) :
    coreView (add_delta st d) =
      coreView (runSeg st (newLines st.answer_up_until_now d)) := by
  rw [add_delta, if_neg (by simp [hpk])]
  by_cases hmem : '\n' ∈ st.answer_up_until_now ++ d
  · have hc' : 0 < countNl (st.answer_up_until_now ++ d) := countNl_pos_of_mem hmem
    have hle : countNl st.answer_up_until_now ≤
        countNl (st.answer_up_until_now ++ d) := by
      rw [countNl_append]; omega
    rw [process_answer]
    have hglnn : get_last_newline_line_number
        ({ st with answer_up_until_now := st.answer_up_until_now ++ d } :
          SearchAndReplaceAccumulator).answer_up_until_now
        = some (countNl (st.answer_up_until_now ++ d)) := by
      simp only [get_last_newline_line_number]
      rw [if_pos hmem]
    rw [hglnn]
    have hstart : (match ({ st with
          answer_up_until_now := st.answer_up_until_now ++ d } :
        SearchAndReplaceAccumulator).previous_answer_line_number with
        | none => 0
        | some p => p + 1) = countNl st.answer_up_until_now := by
      have hp : ({ st with answer_up_until_now := st.answer_up_until_now ++ d } :
          SearchAndReplaceAccumulator).previous_answer_line_number
          = st.previous_answer_line_number := rfl
      rw [hp, hsync]
      by_cases h0 : countNl st.answer_up_until_now = 0
      · rw [if_pos h0]
        simp [h0]
      · rw [if_neg h0]
        show countNl st.answer_up_until_now - 1 + 1 = countNl st.answer_up_until_now
        omega
    simp only [hstart]
    have hcount : countNl (st.answer_up_until_now ++ d) - 1 + 1 -
        countNl st.answer_up_until_now =
        countNl (st.answer_up_until_now ++ d) - countNl st.answer_up_until_now := by
      omega
    rw [hcount]
    have hlen : countNl st.answer_up_until_now +
        (countNl (st.answer_up_until_now ++ d) - countNl st.answer_up_until_now) ≤
        (linesRust (({ st with answer_up_until_now := st.answer_up_until_now ++ d } :
          SearchAndReplaceAccumulator).answer_up_until_now)).length := by
      have h1 := countNl_le_length_linesRust (st.answer_up_until_now ++ d)
      have h2 : ({ st with answer_up_until_now := st.answer_up_until_now ++ d } :
          SearchAndReplaceAccumulator).answer_up_until_now
          = st.answer_up_until_now ++ d := rfl
      rw [h2]
      omega
    rw [processLoop_coreView _ _ _ _ hlen]
    have hansw : ({ st with answer_up_until_now := st.answer_up_until_now ++ d } :
        SearchAndReplaceAccumulator).answer_up_until_now
        = st.answer_up_until_now ++ d := rfl
    rw [hansw]
    rw [linesRust_drop_take (st.answer_up_until_now ++ d)
      (countNl st.answer_up_until_now) hle]
    calc coreView (runSeg { st with
            answer_up_until_now := st.answer_up_until_now ++ d }
            ((terminatedLines (st.answer_up_until_now ++ d)).drop
              (countNl st.answer_up_until_now)))
        = coreView { runSeg st ((terminatedLines (st.answer_up_until_now ++ d)).drop
              (countNl st.answer_up_until_now)) with
            answer_up_until_now := st.answer_up_until_now ++ d } := by
          exact congrArg coreView (runSeg_set_answer _ _ _)
      _ = coreView (runSeg st (newLines st.answer_up_until_now d)) :=
          coreView_set_answer _ _
  · have hc0 : countNl (st.answer_up_until_now ++ d) = 0 :=
      countNl_eq_zero_of_not_mem hmem
    have hT : terminatedLines (st.answer_up_until_now ++ d) = [] :=
      terminatedLines_nil_of_no_nl _ hc0
    have hnl : newLines st.answer_up_until_now d = [] := by
      rw [newLines, hT, List.drop_nil]
    rw [hnl, runSeg_nil, process_answer]
    have hglnn : get_last_newline_line_number
        ({ st with answer_up_until_now := st.answer_up_until_now ++ d } :
          SearchAndReplaceAccumulator).answer_up_until_now = none := by
      simp only [get_last_newline_line_number]
      rw [if_neg hmem]
    rw [hglnn]
    exact coreView_set_answer st (st.answer_up_until_now ++ d)

theorem add_delta_of_panicked {st : SearchAndReplaceAccumulator} (d : Str)
    (h : st.panicked = true) : add_delta st d = st := by
  rw [add_delta, if_pos h]

theorem add_delta_answer (st : SearchAndReplaceAccumulator) (d : Str)
    (hpk : st.panicked = false) :
    (add_delta st d).answer_up_until_now = st.answer_up_until_now ++ d := by
  rw [add_delta, if_neg (by simp [hpk]), process_answer]
  split
  · rfl
  · rw [processLoop_answer]

theorem add_delta_synced (st : SearchAndReplaceAccumulator) (d : Str)
    (hpk : st.panicked = false) (hsync : Synced st)
    (h2 : (add_delta st d).panicked = false) : Synced (add_delta st d) := by
  rw [Synced, add_delta_answer st d hpk]
  rw [add_delta, if_neg (by simp [hpk]), process_answer] at h2 ⊢
  by_cases hmem : '\n' ∈ st.answer_up_until_now ++ d
  · have hc' : 0 < countNl (st.answer_up_until_now ++ d) := countNl_pos_of_mem hmem
    have hle : countNl st.answer_up_until_now ≤
        countNl (st.answer_up_until_now ++ d) := by
      rw [countNl_append]; omega
    have hglnn : get_last_newline_line_number
        ({ st with answer_up_until_now := st.answer_up_until_now ++ d } :
          SearchAndReplaceAccumulator).answer_up_until_now
        = some (countNl (st.answer_up_until_now ++ d)) := by
      simp only [get_last_newline_line_number]
      rw [if_pos hmem]
    rw [hglnn] at h2 ⊢
    have hstart : (match ({ st with
          answer_up_until_now := st.answer_up_until_now ++ d } :
        SearchAndReplaceAccumulator).previous_answer_line_number with
        | none => 0
        | some p => p + 1) = countNl st.answer_up_until_now := by
      have hp : ({ st with answer_up_until_now := st.answer_up_until_now ++ d } :
          SearchAndReplaceAccumulator).previous_answer_line_number
          = st.previous_answer_line_number := rfl
      rw [hp, hsync]
      by_cases h0 : countNl st.answer_up_until_now = 0
      · rw [if_pos h0]
        simp [h0]
      · rw [if_neg h0]
        show countNl st.answer_up_until_now - 1 + 1 = countNl st.answer_up_until_now
        omega
    simp only [hstart] at h2 ⊢
    rw [if_neg (by omega)]
    rw [processLoop_prev _ _ _ _ h2]
    by_cases hz : countNl (st.answer_up_until_now ++ d) - 1 + 1 -
        countNl st.answer_up_until_now = 0
    · rw [if_pos hz]
      have hcc : countNl (st.answer_up_until_now ++ d) =
          countNl st.answer_up_until_now := by omega
      have hp : ({ st with answer_up_until_now := st.answer_up_until_now ++ d } :
          SearchAndReplaceAccumulator).previous_answer_line_number
          = st.previous_answer_line_number := rfl
      rw [hp, hsync, if_neg (by omega), hcc]
    · rw [if_neg hz]
      congr 1
      omega
  · have hc0 : countNl (st.answer_up_until_now ++ d) = 0 :=
      countNl_eq_zero_of_not_mem hmem
    have hglnn : get_last_newline_line_number
        ({ st with answer_up_until_now := st.answer_up_until_now ++ d } :
          SearchAndReplaceAccumulator).answer_up_until_now = none := by
      simp only [get_last_newline_line_number]
      rw [if_neg hmem]
    rw [hglnn]
    have hc0a : countNl st.answer_up_until_now = 0 := by
      rw [countNl_append] at hc0
      omega
    show st.previous_answer_line_number = _
    rw [hsync, if_pos hc0a, if_pos hc0]

theorem add_delta_inv (st : SearchAndReplaceAccumulator) (d : Str)
    (h : Inv st) : Inv (add_delta st d) := by
  rcases h with hp | ⟨hpk, hsync⟩
  · rw [add_delta_of_panicked d hp]
    exact Or.inl hp
  · cases h2 : (add_delta st d).panicked with
    | true => exact Or.inl h2
    | false => exact Or.inr ⟨h2, add_delta_synced st d hpk hsync h2⟩

theorem newLines_split (a d1 d2 : Str) :
    newLines a (d1 ++ d2) = newLines a d1 ++ newLines (a ++ d1) d2 := by
  obtain ⟨D, hD⟩ := terminatedLines_append (a ++ d1) d2
  have hassoc : a ++ (d1 ++ d2) = (a ++ d1) ++ d2 := (List.append_assoc a d1 d2).symm
  have hle : countNl a ≤ countNl (a ++ d1) := by rw [countNl_append]; omega
  have h2 : newLines (a ++ d1) d2 = D := by
    rw [newLines, hD, List.drop_append_eq_append_drop]
    rw [terminatedLines_length, Nat.sub_self, List.drop_zero]
    have : List.drop (countNl (a ++ d1)) (terminatedLines (a ++ d1)) = [] := by
      conv_lhs => rw [← terminatedLines_length (a ++ d1)]
      exact List.drop_length _
    rw [this, List.nil_append]
  rw [h2, newLines, hassoc, hD, List.drop_append_eq_append_drop,
    terminatedLines_length]
  have h0 : countNl a - countNl (a ++ d1) = 0 := by omega
  rw [h0, List.drop_zero, newLines]

theorem add_delta_comp (st : SearchAndReplaceAccumulator) (d1 d2 : Str)
    (h : Inv st) :
    coreView (add_delta (add_delta st d1) d2) =
      coreView (add_delta st (d1 ++ d2)) := by
  rcases h with hp | ⟨hpk, hsync⟩
  · rw [add_delta_of_panicked d1 hp, add_delta_of_panicked d2 hp,
      add_delta_of_panicked (d1 ++ d2) hp]
  · have h1 : coreView (add_delta st d1) =
        coreView (runSeg st (newLines st.answer_up_until_now d1)) :=
      add_delta_coreView st d1 hpk hsync
    have h12 : coreView (add_delta st (d1 ++ d2)) =
        coreView (runSeg st (newLines st.answer_up_until_now (d1 ++ d2))) :=
      add_delta_coreView st (d1 ++ d2) hpk hsync
    have hsplit := newLines_split st.answer_up_until_now d1 d2
    cases hp1 : (add_delta st d1).panicked with
    | true =>
      have hrs : (runSeg st (newLines st.answer_up_until_now d1)).panicked = true := by
        have := congrArg CoreView.panicked h1
        simp only [coreView] at this
        rw [← this]
        exact hp1
      rw [add_delta_of_panicked d2 hp1, h1, h12, hsplit, runSeg_append,
        runSeg_of_panicked _ hrs]
    | false =>
      have hsync1 : Synced (add_delta st d1) := add_delta_synced st d1 hpk hsync hp1
      have h2 : coreView (add_delta (add_delta st d1) d2) =
          coreView (runSeg (add_delta st d1)
            (newLines (add_delta st d1).answer_up_until_now d2)) :=
        add_delta_coreView (add_delta st d1) d2 hp1 hsync1
      rw [h2, add_delta_answer st d1 hpk, h12, hsplit, runSeg_append]
      exact runSeg_coreView_congr h1 _

theorem foldl_add_delta_coreView (chunks : List Str)
    (st : SearchAndReplaceAccumulator) (h : Inv st) :
    coreView (List.foldl add_delta st chunks) =
      coreView (add_delta st chunks.flatten) := by
  induction chunks generalizing st with
  | nil =>
    rcases h with hp | ⟨hpk, hsync⟩
    · rw [List.foldl_nil, List.flatten_nil, add_delta_of_panicked [] hp]
    · rw [List.foldl_nil, List.flatten_nil, add_delta_coreView st [] hpk hsync]
      have hnl : newLines st.answer_up_until_now [] = [] := by
        rw [newLines, List.append_nil]
        conv_lhs => rw [← terminatedLines_length st.answer_up_until_now]
        exact List.drop_length _
      rw [hnl, runSeg_nil]
  | cons d ds ih =>
    rw [List.foldl_cons, List.flatten_cons, ih _ (add_delta_inv st d h),
      add_delta_comp st d ds.flatten h]

theorem Inv_new (code_to_edit : Str) (start_line : Nat) :
    Inv (SearchAndReplaceAccumulator.new code_to_edit start_line) := by
  right
  exact ⟨rfl, by simp [Synced, SearchAndReplaceAccumulator.new, countNl]⟩

theorem brackRun_snoc (o : Option Range) (es : List EditDelta) (e : EditDelta) :
    brackRun o (es ++ [e]) =
      match brackRun o es with
      | some o' => brackStep o' e
      | none => none := by
  induction es generalizing o with
  | nil =>
    show brackRun o [e] = brackStep o e
    rw [brackRun]
    cases hb : brackStep o e with
    | none => rfl
    | some o' => rfl
  | cons f es ih =>
    rw [List.cons_append, brackRun, brackRun]
    cases hb : brackStep o f with
    | none => rfl
    | some o' => exact ih o'

theorem process_line_binv (st : SearchAndReplaceAccumulator) (l : Str)
    (hpk : st.panicked = false) (h : BInv st) : BInv (process_line st l) := by
  have heq : brackRun none st.events = some (openOf st.search_block_status) :=
    h.2 hpk
  cases hs : st.search_block_status with
  | NoBlock =>
    simp only [process_line, hs]
    split
    · exact ⟨h.1, fun _ => by rw [heq, hs]; try rfl⟩
    · exact ⟨h.1, fun _ => by rw [heq, hs]; try rfl⟩
  | BlockStart =>
    simp only [process_line, hs]
    exact ⟨h.1, fun _ => by rw [heq, hs]; try rfl⟩
  | BlockAccumulate accumulated =>
    simp only [process_line, hs]
    split
    · split
      · constructor
        · rw [brackRun_snoc, heq, hs]
          rfl
        · intro _
          rw [brackRun_snoc, heq, hs]
          rfl
      · exact ⟨h.1, fun _ => by rw [heq, hs]; try rfl⟩
      · constructor
        · exact h.1
        · intro hcontra
          exact absurd hcontra (by simp)
    · exact ⟨h.1, fun _ => by rw [heq, hs]; try rfl⟩
  | BlockFound accumulated block_range =>
    simp only [process_line, hs]
    split
    · split
      · split
        · constructor
          · rw [brackRun_snoc, heq, hs]
            simp [brackStep, openOf]
          · intro _
            rw [brackRun_snoc, heq, hs]
            simp [brackStep, openOf]
        · constructor
          · exact h.1
          · intro hcontra
            exact absurd hcontra (by simp)
      · constructor
        · rw [brackRun_snoc, heq, hs]
          simp [brackStep, openOf]
        · intro _
          rw [brackRun_snoc, heq, hs]
          simp [brackStep, openOf]
    · split
      · constructor
        · rw [brackRun_snoc, heq, hs]
          simp [brackStep, openOf]
        · intro _
          rw [brackRun_snoc, heq, hs]
          simp [brackStep, openOf]
      · constructor
        · rw [brackRun_snoc, heq, hs]
          simp [brackStep, openOf]
        · intro _
          rw [brackRun_snoc, heq, hs]
          simp [brackStep, openOf]

theorem runSeg_binv (st : SearchAndReplaceAccumulator) (ls : List Str)
    (h : BInv st) : BInv (runSeg st ls) := by
  induction ls generalizing st with
  | nil => exact h
  | cons l ls ih =>
    rw [runSeg_cons]
    by_cases hp : st.panicked = true
    · rw [if_pos hp]
      exact h
    · have hp' : st.panicked = false := by
        cases hb : st.panicked
        · rfl
        · exact absurd hb hp
      rw [if_neg hp]
      exact ih _ (process_line_binv st l hp' h)

theorem binv_of_coreView_eq {st st' : SearchAndReplaceAccumulator}
    (h : coreView st = coreView st') (hb : BInv st) : BInv st' := by
  have hev : st.events = st'.events := congrArg CoreView.events h
  have hpk : st.panicked = st'.panicked := congrArg CoreView.panicked h
  have hst : st.search_block_status = st'.search_block_status :=
    congrArg CoreView.search_block_status h
  rw [BInv, ← hev, ← hpk, ← hst]
  exact hb

theorem add_delta_binv (st : SearchAndReplaceAccumulator) (d : Str)
    (hInv : Inv st) (h : BInv st) : BInv (add_delta st d) := by
  rcases hInv with hp | ⟨hpk, hsync⟩
  · rw [add_delta_of_panicked d hp]
    exact h
  · exact binv_of_coreView_eq (add_delta_coreView st d hpk hsync).symm
      (runSeg_binv st _ h)

theorem foldl_add_delta_binv (chunks : List Str)
    (st : SearchAndReplaceAccumulator) (hInv : Inv st) (h : BInv st) :
    BInv (List.foldl add_delta st chunks) := by
  induction chunks generalizing st with
  | nil => exact h
  | cons d ds ih =>
    rw [List.foldl_cons]
    exact ih _ (add_delta_inv st d hInv) (add_delta_binv st d hInv h)

theorem BInv_new (code_to_edit : Str) (start_line : Nat) :
    BInv (SearchAndReplaceAccumulator.new code_to_edit start_line) := by
  constructor
  · rfl
  · intro _
    rfl

/-! ## The window search of `get_range_for_search_block` -/

theorem firstMatchIdx_eq_some (L S : List Str) (count i j : Nat)
    (h : firstMatchIdx L S count i = some j) :
    i ≤ j ∧ j < i + count ∧ (L.drop j).take S.length = S ∧
      ∀ k, i ≤ k → k < j → (L.drop k).take S.length ≠ S := by
  induction count generalizing i with
  | zero => exact absurd h (by simp [firstMatchIdx])
  | succ n ih =>
    rw [firstMatchIdx] at h
    by_cases hm : (L.drop i).take S.length = S
    · rw [if_pos hm] at h
      have hij : i = j := by
        injection h
      subst hij
      exact ⟨Nat.le_refl _, by omega, hm, fun k hk1 hk2 => by omega⟩
    · rw [if_neg hm] at h
      obtain ⟨h1, h2, h3, h4⟩ := ih (i + 1) h
      refine ⟨by omega, by omega, h3, fun k hk1 hk2 => ?_⟩
      by_cases hki : k = i
      · subst hki
        exact hm
      · exact h4 k (by omega) hk2

theorem firstMatchIdx_isSome (L S : List Str) (count i j : Nat)
    (h1 : i ≤ j) (h2 : j < i + count) (h3 : (L.drop j).take S.length = S) :
    (firstMatchIdx L S count i).isSome = true := by
  induction count generalizing i with
  | zero => omega
  | succ n ih =>
    rw [firstMatchIdx]
    by_cases hm : (L.drop i).take S.length = S
    · rw [if_pos hm]
      rfl
    · rw [if_neg hm]
      have hij : i ≠ j := by
        rintro rfl
        exact hm h3
      exact ih (i + 1) (by omega) (by omega)

/-- C3: when some window of the buffer's lines matches the candidate's lines,
`get_range_for_search_block` returns the window with the least start index,
as the absolute inclusive range `(i + anchor, i + len - 1 + anchor)` — a
single occurrence, never all of them. -/
theorem range_resolution_first_match (code_to_look_at : Str) (start_line : Nat)
    (search_block : Str) (j : Nat)
    (hS : linesRust search_block ≠ [])
    (hmatch : ((linesRust code_to_look_at).drop j).take
        (linesRust search_block).length = linesRust search_block) :
    ∃ i, i ≤ j ∧
      ((linesRust code_to_look_at).drop i).take (linesRust search_block).length
        = linesRust search_block ∧
      (∀ k, k < i →
        ((linesRust code_to_look_at).drop k).take (linesRust search_block).length
          ≠ linesRust search_block) ∧
      get_range_for_search_block code_to_look_at start_line search_block
        = Except.ok (some ⟨i + start_line,
            i + (linesRust search_block).length - 1 + start_line⟩) := by
  have hm0 : (linesRust search_block).length ≠ 0 := by
    intro h0
    exact hS (List.length_eq_zero.mp h0)
  have hlen : (((linesRust code_to_look_at).drop j).take
      (linesRust search_block).length).length = (linesRust search_block).length :=
    congrArg List.length hmatch
  rw [List.length_take, List.length_drop] at hlen
  have h5 : (linesRust search_block).length ≤
      (linesRust code_to_look_at).length - j := by
    rw [← hlen]
    exact Nat.min_le_right _ _
  have hjn : j + (linesRust search_block).length ≤
      (linesRust code_to_look_at).length := by omega
  have hnm : ¬ ((linesRust code_to_look_at).length <
      (linesRust search_block).length) := by omega
  have hcomp := firstMatchIdx_isSome (linesRust code_to_look_at)
    (linesRust search_block)
    ((linesRust code_to_look_at).length - (linesRust search_block).length + 1) 0 j
    (Nat.zero_le j) (by omega) hmatch
  obtain ⟨i, hi⟩ := Option.isSome_iff_exists.mp hcomp
  obtain ⟨h1, h2, h3, h4⟩ := firstMatchIdx_eq_some _ _ _ _ _ hi
  refine ⟨i, ?_, h3, fun k hk => h4 k (Nat.zero_le k) hk, ?_⟩
  · by_contra hij
    push_neg at hij
    exact h4 j (Nat.zero_le j) hij hmatch
  · simp only [get_range_for_search_block]
    rw [if_neg hm0, if_neg hnm, hi]

/-- Witness for C3, with two identical windows `["x","y"]` at indices 0 and 2:
resolution picks the first. -/
theorem range_resolution_first_match_witness :
    ∃ i, i ≤ 2 ∧
      ((linesRust "x\ny\nx\ny".toList).drop i).take (linesRust "x\ny".toList).length
        = linesRust "x\ny".toList ∧
      (∀ k, k < i →
        ((linesRust "x\ny\nx\ny".toList).drop k).take (linesRust "x\ny".toList).length
          ≠ linesRust "x\ny".toList) ∧
      get_range_for_search_block "x\ny\nx\ny".toList 5 "x\ny".toList
        = Except.ok (some ⟨i + 5, i + (linesRust "x\ny".toList).length - 1 + 5⟩) :=
  range_resolution_first_match "x\ny\nx\ny".toList 5 "x\ny".toList 2
    (by decide) (by decide)

/-! ## Per-block behaviour of the state machine -/

theorem stripCr_nil : stripCr [] = [] := rfl

theorem linesRust_cons_nl (s : Str) : linesRust ('\n' :: s) = [] :: linesRust s := by
  rw [linesRust_eq, linesRust_eq, terminatedLines, terminatedLines]
  have h1 : splitNl ('\n' :: s) = [] :: splitNl s := by
    rw [splitNl_cons, if_pos rfl]
  rw [h1, List.dropLast_cons_of_ne_nil (splitNl_ne_nil s), List.map_cons,
    List.getLastD_cons, stripCr_nil, List.cons_append]

theorem joinNl_cons (l : Str) (ls : List Str) :
    joinNl (l :: ls) = l ++ (List.map (fun x => '\n' :: x) ls).flatten := by
  induction ls generalizing l with
  | nil => simp [joinNl]
  | cons l' ls' ih =>
    rw [show joinNl (l :: l' :: ls') = l ++ '\n' :: joinNl (l' :: ls') from rfl, ih]
    simp [List.flatten_cons]

/-- Inside a found block with a pending replacement `u`, every further
non-marker line is appended to the pending replacement with a `'\n'`
separator, and is emitted as a `Delta` payload prefixed with `'\n'`. -/
theorem runSeg_blockFound_deltas (ls : List Str) (st : SearchAndReplaceAccumulator)
    (acc u : Str) (r : Range)
    (hst : st.search_block_status = SearchBlockStatus.BlockFound acc r)
    (hub : st.updated_block = some u)
    (hpk : st.panicked = false)
    (hmk : ∀ l ∈ ls, l ≠ updated) :
    runSeg st ls = { st with
      updated_block := some (u ++ (List.map (fun x => '\n' :: x) ls).flatten),
      events := st.events ++
        List.map (fun x => EditDelta.EditDelta r ('\n' :: x)) ls } := by
  induction ls generalizing st u with
  | nil =>
    rw [runSeg_nil, List.map_nil, List.flatten_nil, List.append_nil,
      List.map_nil, List.append_nil, ← hub]
  | cons l ls ih =>
    obtain ⟨cl, sl, ans, pv, status, ub, ev, pk⟩ := st
    obtain rfl : status = SearchBlockStatus.BlockFound acc r := hst
    obtain rfl : ub = some u := hub
    obtain rfl : pk = false := hpk
    have hl : l ≠ updated := hmk l (by simp)
    have hmk' : ∀ x ∈ ls, x ≠ updated := fun x hx => hmk x (by simp [hx])
    rw [runSeg_cons, if_neg (by simp)]
    have hpl : process_line
        ⟨cl, sl, ans, pv, SearchBlockStatus.BlockFound acc r, some u, ev, false⟩ l
        = ⟨cl, sl, ans, pv, SearchBlockStatus.BlockFound acc r,
            some (u ++ '\n' :: l),
            ev ++ [EditDelta.EditDelta r ('\n' :: l)], false⟩ := by
      simp only [process_line, if_neg hl]
    rw [hpl, ih _ (u ++ '\n' :: l) rfl rfl rfl hmk']
    simp [List.append_assoc]

/-- C6: from a freshly found block (no pending replacement), a non-empty run
of replacement lines emits the first line as-is and each subsequent line
prefixed with a single newline, and concatenating the emitted payloads
reconstructs the accumulated replacement text exactly. -/
theorem delta_payloads_reconstruct (ls : List Str)
    (st : SearchAndReplaceAccumulator) (acc : Str) (r : Range)
    (hst : st.search_block_status = SearchBlockStatus.BlockFound acc r)
    (hub : st.updated_block = none)
    (hpk : st.panicked = false)
    (hne : ls ≠ [])
    (hmk : ∀ l ∈ ls, l ≠ updated) :
    runSeg st ls = { st with
        updated_block := some (joinNl ls),
        events := st.events ++ EditDelta.EditDelta r (ls.headD []) ::
          List.map (fun x => EditDelta.EditDelta r ('\n' :: x)) ls.tail }
    ∧ ls.headD [] ++ (List.map (fun x => '\n' :: x) ls.tail).flatten = joinNl ls := by
  cases ls with
  | nil => exact absurd rfl hne
  | cons l ls' =>
    constructor
    · obtain ⟨cl, sl, ans, pv, status, ub, ev, pk⟩ := st
      obtain rfl : status = SearchBlockStatus.BlockFound acc r := hst
      obtain rfl : ub = none := hub
      obtain rfl : pk = false := hpk
      have hl : l ≠ updated := hmk l (by simp)
      have hmk' : ∀ x ∈ ls', x ≠ updated := fun x hx => hmk x (by simp [hx])
      rw [runSeg_cons, if_neg (by simp)]
      have hpl : process_line
          ⟨cl, sl, ans, pv, SearchBlockStatus.BlockFound acc r, none, ev, false⟩ l
          = ⟨cl, sl, ans, pv, SearchBlockStatus.BlockFound acc r, some l,
              ev ++ [EditDelta.EditDelta r l], false⟩ := by
        simp only [process_line, if_neg hl]
      rw [hpl, runSeg_blockFound_deltas ls' _ acc l r rfl rfl rfl hmk']
      simp [List.append_assoc, joinNl_cons]
    · rw [List.headD_cons, List.tail_cons, joinNl_cons]

/-- C5: a divider arriving while accumulating a search block whose text has no
match in the buffer silently discards the block: the parser returns to
`NoBlock` and nothing else changes — no event, no buffer change, no panic. -/
theorem unresolved_block_discarded (st : SearchAndReplaceAccumulator)
    (accumulated : Str)
    (hst : st.search_block_status = SearchBlockStatus.BlockAccumulate accumulated)
    (hres : get_range_for_search_block (joinNl st.code_lines) st.start_line
      accumulated = Except.ok none) :
    process_line st divider =
      { st with search_block_status := SearchBlockStatus.NoBlock } := by
  simp only [process_line, hst]
  rw [if_true, hres]

/-- C9: a closing marker arriving with no accumulated replacement line leaves
the buffer entirely unchanged (the matched range is not deleted) while the
`EditEnd` event is still emitted. -/
theorem empty_replacement_leaves_buffer (st : SearchAndReplaceAccumulator)
    (acc : Str) (r : Range)
    (hst : st.search_block_status = SearchBlockStatus.BlockFound acc r)
    (hub : st.updated_block = none) :
    process_line st updated = { st with
      search_block_status := SearchBlockStatus.NoBlock,
      updated_block := none,
      events := st.events ++ [EditDelta.EditEnd r] } := by
  simp only [process_line, hst, hub]
  rw [if_true]

/-- C10: when the resolved range starts at the buffer's anchor line (local
index 0) and a replacement is pending, the patched buffer starts with an
extra empty line: the prefix of lines before the range is empty, yet the
patch still inserts a `'\n'` separator before the replacement text. -/
theorem anchor_start_patch_extra_empty_line (st : SearchAndReplaceAccumulator)
    (acc u : Str) (r : Range)
    (hst : st.search_block_status = SearchBlockStatus.BlockFound acc r)
    (hub : st.updated_block = some u)
    (hstart : r.start_line = st.start_line)
    (hend : r.end_line - st.start_line ≤ st.code_lines.length) :
    (process_line st updated).code_lines =
      [] :: linesRust (u ++ '\n' ::
        joinNl (st.code_lines.drop (r.end_line - st.start_line))) := by
  simp only [process_line, hst, hub]
  rw [if_true, hstart, Nat.sub_self]
  rw [if_pos ⟨Nat.zero_le _, hend⟩]
  show linesRust (joinNl (List.take 0 st.code_lines) ++ '\n' ::
      (u ++ '\n' :: joinNl (st.code_lines.drop (r.end_line - st.start_line))))
    = _
  rw [List.take_zero]
  show linesRust ('\n' :: (u ++ '\n' ::
      joinNl (st.code_lines.drop (r.end_line - st.start_line)))) = _
  rw [linesRust_cons_nl]

/-! ## Claim theorems -/

/-- C1 (code bug): on the spec's Scenario A the emitted events are exactly as
specified, but the final buffer is `["def foo():", "    return 2",
"    return 1"]`: the suffix slice `code_lines[end..]` starts at the
*inclusive* end index of the matched range, so the last matched line is kept
instead of replaced, contradicting "keep exactly the lines strictly before
and strictly after the resolved range" and the specified final buffer
`["def foo():", "    return 2"]`. -/
theorem scenarioA_run_divergence :
    (add_delta (SearchAndReplaceAccumulator.new scenario_buffer 10)
        "<<<<<<< SEARCH\n    return 1\n=======\n    return 2\n>>>>>>> REPLACE\n".toList).events
      = [EditDelta.EditStarted ⟨11, 11⟩,
         EditDelta.EditDelta ⟨11, 11⟩ "    return 2".toList,
         EditDelta.EditEnd ⟨11, 11⟩]
    ∧ (add_delta (SearchAndReplaceAccumulator.new scenario_buffer 10)
        "<<<<<<< SEARCH\n    return 1\n=======\n    return 2\n>>>>>>> REPLACE\n".toList).code_lines
      = ["def foo():".toList, "    return 2".toList, "    return 1".toList] :=
  ⟨by decide, by decide⟩

/-- C2: chunking-invariance — feeding the same total text to `add_delta` in
any list of fragments produces exactly the events and final buffer of feeding
it as one fragment. -/
theorem chunking_invariance (code_to_edit : Str) (start_line : Nat)
    (chunks : List Str) :
    (List.foldl add_delta (SearchAndReplaceAccumulator.new code_to_edit start_line)
        chunks).events
      = (add_delta (SearchAndReplaceAccumulator.new code_to_edit start_line)
          chunks.flatten).events
    ∧ (List.foldl add_delta (SearchAndReplaceAccumulator.new code_to_edit start_line)
        chunks).code_lines
      = (add_delta (SearchAndReplaceAccumulator.new code_to_edit start_line)
          chunks.flatten).code_lines := by
  have h := foldl_add_delta_coreView chunks
    (SearchAndReplaceAccumulator.new code_to_edit start_line)
    (Inv_new code_to_edit start_line)
  exact ⟨congrArg CoreView.events h, congrArg CoreView.code_lines h⟩

/-- C4 (code bug): a search block with more lines than the buffer makes
`get_range_for_search_block` panic — `code_to_look_at_lines.len() -
search_block_len` underflows in `usize` — instead of failing gracefully by
returning no range. -/
theorem resolver_overlong_search_panics :
    get_range_for_search_block "a".toList 0 "a\nb".toList
      = Except.error "panic: attempt to subtract with overflow" := rfl

/-- C7: on every input chunking, the emitted event sequence is accepted by
the bracket automaton: each `Delta`/`Ended` carries the range of the unique
open block, opened by a `Started` while no other block is open — so deltas
lie strictly between their block's `Started` and `Ended`, in arrival order,
and at most one block is ever in flight. -/
theorem events_well_bracketed (code_to_edit : Str) (start_line : Nat)
    (chunks : List Str) :
    (brackRun none (List.foldl add_delta
        (SearchAndReplaceAccumulator.new code_to_edit start_line) chunks).events).isSome
      = true :=
  (foldl_add_delta_binv chunks _ (Inv_new code_to_edit start_line)
    (BInv_new code_to_edit start_line)).1

/-- C8: the invocation yields the complete final model text exactly when the
terminal future's stored result is a success, and every other outcome is
surfaced as the single generic retries-exhausted error. -/
theorem invoke_outcome_classification {ε : Type}
    (stream_result : Option (Except ε Str)) :
    (∀ s : Str, invoke_final stream_result
        = Except.ok (SearchAndReplaceEditingResponse.mk s)
      ↔ stream_result = some (Except.ok s))
    ∧ (invoke_final stream_result = Except.error ToolError.RetriesExhausted
      ↔ ∀ s : Str, stream_result ≠ some (Except.ok s)) := by
  rcases stream_result with _ | r
  · refine ⟨fun s => ?_, ?_⟩
    · simp [invoke_final]
    · simp [invoke_final]
  · rcases r with e | s0
    · refine ⟨fun s => ?_, ?_⟩
      · simp [invoke_final]
      · simp [invoke_final]
    · refine ⟨fun s => ?_, ?_⟩
      · simp [invoke_final, SearchAndReplaceEditingResponse.mk.injEq]
      · simp only [invoke_final]
        constructor
        · intro h
          exact absurd h (by simp)
        · intro h
          exact absurd rfl (h s0)

/-- Witness for C5: scenario B's unresolved search block (`"    return 99"`
is absent from the buffer) is silently discarded at the divider. -/
theorem unresolved_block_discarded_witness :
    process_line stateB divider
      = { stateB with search_block_status := SearchBlockStatus.NoBlock } :=
  unresolved_block_discarded stateB "    return 99".toList (by decide) (by rfl)

/-- Witness for C6 on scenario A's found block with two replacement lines. -/
theorem delta_payloads_reconstruct_witness :
    (runSeg stateFound ["    return 2".toList, "x2".toList]
      = { stateFound with
          updated_block := some (joinNl ["    return 2".toList, "x2".toList]),
          events := stateFound.events ++
            EditDelta.EditDelta ⟨11, 11⟩
              (["    return 2".toList, "x2".toList].headD []) ::
            List.map (fun x => EditDelta.EditDelta ⟨11, 11⟩ ('\n' :: x))
              ["    return 2".toList, "x2".toList].tail })
    ∧ ["    return 2".toList, "x2".toList].headD [] ++
        (List.map (fun x => '\n' :: x)
          ["    return 2".toList, "x2".toList].tail).flatten
      = joinNl ["    return 2".toList, "x2".toList] :=
  delta_payloads_reconstruct ["    return 2".toList, "x2".toList] stateFound
    "    return 1".toList ⟨11, 11⟩ (by decide) (by decide) (by decide)
    (by decide) (by decide)

/-- Witness for C9: closing scenario A's found block with zero replacement
lines emits `Ended (11,11)` and leaves the buffer untouched. -/
theorem empty_replacement_leaves_buffer_witness :
    process_line stateFound updated = { stateFound with
      search_block_status := SearchBlockStatus.NoBlock,
      updated_block := none,
      events := stateFound.events ++ [EditDelta.EditEnd ⟨11, 11⟩] } :=
  empty_replacement_leaves_buffer stateFound "    return 1".toList ⟨11, 11⟩
    (by decide) (by decide)

/-- Witness for C10: a block matched at the anchor line (range `(10,10)`,
local index 0) with a pending replacement patches the buffer to start with an
extra empty line. -/
theorem anchor_start_patch_extra_empty_line_witness :
    (process_line stateFound0 updated).code_lines =
      [] :: linesRust ("new_first_line".toList ++ '\n' ::
        joinNl (stateFound0.code_lines.drop
          ((Range.mk 10 10).end_line - stateFound0.start_line))) :=
  anchor_start_patch_extra_empty_line stateFound0 "def foo():".toList
    "new_first_line".toList ⟨10, 10⟩ (by decide) (by decide) (by decide)
    (by decide)

end SearchAndReplace
